import Mathlib

/-!
Verification of the SNN (Synthetic Nearest Neighbors) estimator repository.

The repository ships two Python source files: the synthetic panel-data
generator `synthetic_data_generation/syn_gyn_module.py` and the test suite
`tests/test_snn.py`.  The estimator module itself (`algorithms/snn.py`) is
not part of the source snapshot, so the estimator-side functions
(`_split`, `_find_max_clique`, `_get_anchors`, `_predict`, `matrix_full`,
`repr`) are modelled from the specification; the generator-side functions
(`_split_categories`, `add_effects`, `sample`) are embedded directly from
the Python source.  Real values are embedded as rationals (`ℚ`): the
properties at stake depend only on field arithmetic and on which entries
are observed, never on floating-point rounding.  A missing matrix entry
(NaN) is embedded as `none : Option ℚ`.
-/

namespace SNNModel

/-- Modelled from the spec: `SNN._split` from the absent `algorithms/snn.py`.
"The split function, for an ordered sequence of length `N` split into `k`
groups, assigns `N mod k` groups a size one larger than the remaining
groups; the larger groups come first", and the groups are contiguous
slices.  `splitSizes N k` is the list of group sizes. -/
def splitSizes (N k : Nat) : List Nat :=
  List.replicate (N % k) (N / k + 1) ++ List.replicate (k - N % k) (N / k)

/-- Cut a sequence into consecutive contiguous chunks of the given sizes. -/
def splitChunks {α : Type} : List α → List Nat → List (List α)
  | _, [] => []
  | seq, s :: rest => seq.take s :: splitChunks (seq.drop s) rest

/-- Modelled from the spec: `SNN._split(seq, k)` splits `seq` into `k`
contiguous groups of sizes `splitSizes (len seq) k`. -/
def split {α : Type} (seq : List α) (k : Nat) : List (List α) :=
  splitChunks seq (splitSizes seq.length k)

theorem length_splitChunks {α : Type} (seq : List α) (sizes : List Nat) :
    (splitChunks seq sizes).length = sizes.length := by
  induction sizes generalizing seq with
  | nil => rfl
  | cons s rest ih => simp [splitChunks, ih]

theorem join_splitChunks {α : Type} (seq : List α) (sizes : List Nat) :
    (splitChunks seq sizes).flatten = seq.take sizes.sum := by
  induction sizes generalizing seq with
  | nil => simp [splitChunks]
  | cons s rest ih =>
      simp only [splitChunks, List.flatten_cons, List.sum_cons]
      rw [ih, List.take_add]

theorem map_length_splitChunks {α : Type} (seq : List α) (sizes : List Nat)
    (h : sizes.sum ≤ seq.length) :
    (splitChunks seq sizes).map List.length = sizes := by
  induction sizes generalizing seq with
  | nil => rfl
  | cons s rest ih =>
      simp only [List.sum_cons] at h
      have hs : s ≤ seq.length := le_trans (Nat.le_add_right _ _) h
      have hrest : rest.sum ≤ (seq.drop s).length := by
        simp only [List.length_drop]
        omega
      simp [splitChunks, List.length_take, Nat.min_eq_left hs, ih _ hrest]

theorem sum_splitSizes (N k : Nat) (hk : 1 ≤ k) : (splitSizes N k).sum = N := by
  have hmod : N % k < k := Nat.mod_lt _ hk
  simp only [splitSizes, List.sum_append, List.sum_replicate, smul_eq_mul]
  have : N % k * (N / k + 1) + (k - N % k) * (N / k)
      = k * (N / k) + N % k := by
    rw [Nat.mul_add, Nat.sub_mul]
    have hle : N % k * (N / k) ≤ k * (N / k) :=
      Nat.mul_le_mul_right _ (le_of_lt hmod)
    omega
  rw [this]
  exact Nat.div_add_mod N k

theorem length_splitSizes (N k : Nat) (hk : 1 ≤ k) :
    (splitSizes N k).length = k := by
  have hmod : N % k < k := Nat.mod_lt _ hk
  simp [splitSizes]
  omega

/-- C3: for every ordered sequence `seq` of length `N` and every `k` with
`1 ≤ k ≤ N`, `split seq k` returns exactly `k` groups whose lengths sum to
`N`; the first `N mod k` groups each have `N/k + 1` elements and the
remaining groups have `N/k` elements (the larger groups come first), and
the groups are contiguous slices of `seq` (their concatenation is `seq`). -/
theorem split_group_sizes {α : Type} (seq : List α) (k : Nat)
    (hk : 1 ≤ k) (hkN : k ≤ seq.length) :
    (split seq k).length = k ∧
    (split seq k).map List.length =
      List.replicate (seq.length % k) (seq.length / k + 1) ++
        List.replicate (k - seq.length % k) (seq.length / k) ∧
    ((split seq k).map List.length).sum = seq.length ∧
    (split seq k).flatten = seq := by
  have hsum := sum_splitSizes seq.length k hk
  have hmap : (split seq k).map List.length = splitSizes seq.length k :=
    map_length_splitChunks _ _ (le_of_eq hsum)
  refine ⟨?_, ?_, ?_, ?_⟩
  · rw [split, length_splitChunks, length_splitSizes _ _ hk]
  · rw [hmap]; rfl
  · rw [hmap]; exact hsum
  · rw [split, join_splitChunks, hsum, List.take_length]

theorem split_group_sizes_witness :
    (1 ≤ 2 ∧ 2 ≤ ([10, 20, 30, 40, 50] : List Nat).length) ∧
    ((split ([10, 20, 30, 40, 50] : List Nat) 2).length = 2 ∧
     (split ([10, 20, 30, 40, 50] : List Nat) 2).map List.length =
       List.replicate (([10, 20, 30, 40, 50] : List Nat).length % 2)
           (([10, 20, 30, 40, 50] : List Nat).length / 2 + 1) ++
         List.replicate (2 - ([10, 20, 30, 40, 50] : List Nat).length % 2)
           (([10, 20, 30, 40, 50] : List Nat).length / 2) ∧
     ((split ([10, 20, 30, 40, 50] : List Nat) 2).map List.length).sum =
       ([10, 20, 30, 40, 50] : List Nat).length ∧
     (split ([10, 20, 30, 40, 50] : List Nat) 2).flatten =
       ([10, 20, 30, 40, 50] : List Nat)) :=
  ⟨⟨by decide, by decide⟩,
    split_group_sizes [10, 20, 30, 40, 50] 2 (by decide) (by decide)⟩

/-- Modelled from the spec: the bipartite compatibility graph of §4.2 from
the absent `algorithms/snn.py`.  Nodes are candidate donor rows and
candidate donor columns; a row `r` and a column `c` are connected iff the
entry `(r, c)` is observed; `edge` is that row–column adjacency.  A pair
of index lists is a biclique iff every selected row is connected to every
selected column. -/
def isBiclique (edge : Nat → Nat → Bool) (rs cs : List Nat) : Bool :=
  rs.all (fun r => cs.all (fun c => edge r c))

/-- All non-trivial bicliques: pairs of a non-empty subset of the candidate
rows and a non-empty subset of the candidate columns whose entries are all
connected, enumerated in a fixed order. -/
def bicliqueCandidates (edge : Nat → Nat → Bool) (rows cols : List Nat) :
    List (List Nat × List Nat) :=
  rows.sublists.bind (fun rs =>
    (cols.sublists.map (fun cs => (rs, cs))).filter
      (fun p => !p.1.isEmpty && !p.2.isEmpty && isBiclique edge p.1 p.2))

/-- The objective maximized by the clique search: `|rows| * |cols|`. -/
def area (p : List Nat × List Nat) : Nat := p.1.length * p.2.length

/-- Fixed, deterministic tie-break: keep the earlier candidate in the
enumeration order unless a strictly larger area appears. -/
def pickLarger (best q : List Nat × List Nat) : List Nat × List Nat :=
  if area best < area q then q else best

/-- Select a maximum-area candidate, deterministically. -/
def argmaxArea : List (List Nat × List Nat) → Option (List Nat × List Nat)
  | [] => none
  | p :: rest => some (rest.foldl pickLarger p)

/-- Modelled from the spec: `SNN._find_max_clique` of §4.2 from the absent
`algorithms/snn.py`.  When the candidate submatrix is already fully
observed it short-circuits and returns the full candidate row/column sets
without invoking clique search; otherwise it returns a maximum-area
non-trivial biclique under a fixed deterministic tie-break, and `none`
(the Python `False, False`) when no non-trivial biclique exists. -/
def find_max_clique (edge : Nat → Nat → Bool) (rows cols : List Nat) :
    Option (List Nat × List Nat) :=
  if isBiclique edge rows cols then some (rows, cols)
  else argmaxArea (bicliqueCandidates edge rows cols)

theorem foldl_pickLarger_mem (l : List (List Nat × List Nat))
    (p : List Nat × List Nat) : l.foldl pickLarger p ∈ p :: l := by
  induction l generalizing p with
  | nil => simp
  | cons q rest ih =>
      have h := ih (pickLarger p q)
      have hpq : pickLarger p q = q ∨ pickLarger p q = p := by
        unfold pickLarger; split <;> simp
      simp only [List.foldl_cons, List.mem_cons] at h ⊢
      rcases h with h | h
      · rcases hpq with hq | hq <;> rw [hq] at h ⊢ <;> simp [h]
      · simp [h]

theorem area_le_foldl_pickLarger (l : List (List Nat × List Nat))
    (p : List Nat × List Nat) : area p ≤ area (l.foldl pickLarger p) := by
  induction l generalizing p with
  | nil => simp
  | cons r rest ih =>
      have hstep : area p ≤ area (pickLarger p r) := by
        unfold pickLarger; split <;> omega
      simp only [List.foldl_cons]
      exact le_trans hstep (ih (pickLarger p r))

theorem foldl_pickLarger_ge (l : List (List Nat × List Nat))
    (p q : List Nat × List Nat) (hq : q ∈ p :: l) :
    area q ≤ area (l.foldl pickLarger p) := by
  induction l generalizing p with
  | nil =>
      simp only [List.mem_singleton] at hq
      simp [hq, List.foldl_nil]
  | cons r rest ih =>
      simp only [List.mem_cons] at hq
      have hstep : ∀ x, x = p ∨ x = r → area x ≤ area (pickLarger p r) := by
        intro x hx
        unfold pickLarger
        split
        · rcases hx with hx | hx <;> subst hx <;> omega
        · rcases hx with hx | hx <;> subst hx <;> omega
      simp only [List.foldl_cons]
      rcases hq with hq | hq | hq
      · exact le_trans (hstep q (Or.inl hq))
          (area_le_foldl_pickLarger rest (pickLarger p r))
      · exact le_trans (hstep q (Or.inr hq))
          (area_le_foldl_pickLarger rest (pickLarger p r))
      · exact ih (pickLarger p r) (List.mem_cons_of_mem _ hq)

theorem mem_bicliqueCandidates (edge : Nat → Nat → Bool)
    (rows cols : List Nat) (p : List Nat × List Nat) :
    p ∈ bicliqueCandidates edge rows cols ↔
      p.1.Sublist rows ∧ p.2.Sublist cols ∧ p.1 ≠ [] ∧ p.2 ≠ [] ∧
        isBiclique edge p.1 p.2 = true := by
  cases p with
  | mk rs cs =>
      simp only [bicliqueCandidates, List.mem_bind, List.mem_filter,
        List.mem_map, List.mem_sublists]
      constructor
      · rintro ⟨rs', hrs', ⟨⟨cs', hcs', heq⟩, hpred⟩⟩
        cases heq
        simp only [Bool.and_eq_true, Bool.not_eq_true',
          List.isEmpty_eq_false] at hpred
        exact ⟨hrs', hcs', hpred.1.1, hpred.1.2, hpred.2⟩
      · rintro ⟨hrs, hcs, hrne, hcne, hbi⟩
        refine ⟨rs, hrs, ⟨⟨cs, hcs, rfl⟩, ?_⟩⟩
        simp only [Bool.and_eq_true, Bool.not_eq_true',
          List.isEmpty_eq_false]
        exact ⟨⟨hrne, hcne⟩, hbi⟩

theorem isBiclique_iff (edge : Nat → Nat → Bool) (rs cs : List Nat) :
    isBiclique edge rs cs = true ↔ ∀ r ∈ rs, ∀ c ∈ cs, edge r c = true := by
  simp [isBiclique, List.all_eq_true]

/-- With no row–column edges at all (and non-empty candidate pools), the
search finds no non-trivial biclique and returns `none`. -/
theorem find_max_clique_no_edges (edge : Nat → Nat → Bool)
    (rows cols : List Nat) (hr : rows ≠ []) (hc : cols ≠ [])
    (hnone : ∀ r ∈ rows, ∀ c ∈ cols, edge r c = false) :
    find_max_clique edge rows cols = none := by
  obtain ⟨r0, hr0⟩ := List.exists_mem_of_ne_nil _ hr
  obtain ⟨c0, hc0⟩ := List.exists_mem_of_ne_nil _ hc
  have hnb : ¬ isBiclique edge rows cols = true := by
    rw [isBiclique_iff]
    intro hall
    have := hall r0 hr0 c0 hc0
    rw [hnone r0 hr0 c0 hc0] at this
    exact Bool.false_ne_true this
  have hcand : bicliqueCandidates edge rows cols = [] := by
    rw [List.eq_nil_iff_forall_not_mem]
    intro p hp
    rw [mem_bicliqueCandidates] at hp
    obtain ⟨h1, h2, h3, h4, h5⟩ := hp
    obtain ⟨r, hrm⟩ := List.exists_mem_of_ne_nil _ h3
    obtain ⟨c, hcm⟩ := List.exists_mem_of_ne_nil _ h4
    have := (isBiclique_iff edge p.1 p.2).1 h5 r hrm c hcm
    rw [hnone r (h1.subset hrm) c (h2.subset hcm)] at this
    exact Bool.false_ne_true this
  rw [find_max_clique, if_neg hnb, hcand]
  rfl

/-- C1: the max-biclique search over the bipartite compatibility graph
returns `none` (Python `False, False`) when the graph has zero row–column
edges; when the candidate submatrix is fully observed it returns the full
candidate row and column sets (short-circuiting clique search); otherwise
(at least one edge) it returns row/column index sets whose induced
submatrix is fully observed (a biclique) and maximal by `|rows|*|cols|`,
deterministically (the model is a function with a fixed tie-break). -/
theorem find_max_clique_spec (edge : Nat → Nat → Bool) (rows cols : List Nat) :
    (rows ≠ [] → cols ≠ [] →
        (∀ r ∈ rows, ∀ c ∈ cols, edge r c = false) →
        find_max_clique edge rows cols = none) ∧
    (isBiclique edge rows cols = true →
        find_max_clique edge rows cols = some (rows, cols)) ∧
    ((∃ r ∈ rows, ∃ c ∈ cols, edge r c = true) →
        ∃ rs cs, find_max_clique edge rows cols = some (rs, cs)) ∧
    (∀ rs cs, find_max_clique edge rows cols = some (rs, cs) →
        rs.Sublist rows ∧ cs.Sublist cols ∧ isBiclique edge rs cs = true ∧
        ∀ rs' cs', rs'.Sublist rows → cs'.Sublist cols → rs' ≠ [] →
          cs' ≠ [] → isBiclique edge rs' cs' = true →
          rs'.length * cs'.length ≤ rs.length * cs.length) := by
  refine ⟨?_, ?_, ?_, ?_⟩
  · exact find_max_clique_no_edges edge rows cols
  · intro h
    rw [find_max_clique, if_pos h]
  · rintro ⟨r, hr, c, hc, he⟩
    by_cases hb : isBiclique edge rows cols = true
    · exact ⟨rows, cols, by rw [find_max_clique, if_pos hb]⟩
    · have hmem : (([r], [c]) : List Nat × List Nat) ∈
          bicliqueCandidates edge rows cols := by
        rw [mem_bicliqueCandidates]
        refine ⟨by simpa [List.singleton_sublist] using hr,
          by simpa [List.singleton_sublist] using hc, by simp, by simp, ?_⟩
        simp [isBiclique, he]
      rcases hcand : bicliqueCandidates edge rows cols with _ | ⟨q, rest⟩
      · rw [hcand] at hmem
        exact absurd hmem (List.not_mem_nil _)
      · refine ⟨(rest.foldl pickLarger q).1, (rest.foldl pickLarger q).2, ?_⟩
        rw [find_max_clique, if_neg hb, hcand]
        simp [argmaxArea]
  · intro rs cs h
    rw [find_max_clique] at h
    by_cases hb : isBiclique edge rows cols = true
    · rw [if_pos hb] at h
      obtain ⟨rfl, rfl⟩ : rows = rs ∧ cols = cs := by
        simpa [Prod.ext_iff] using h
      refine ⟨List.Sublist.refl _, List.Sublist.refl _, hb, ?_⟩
      intro rs' cs' hrs hcs _ _ _
      exact Nat.mul_le_mul hrs.length_le hcs.length_le
    · rw [if_neg hb] at h
      rcases hcand : bicliqueCandidates edge rows cols with _ | ⟨q, rest⟩
      · rw [hcand] at h
        simp [argmaxArea] at h
      · rw [hcand] at h
        simp only [argmaxArea, Option.some.injEq] at h
        have hmem : (rs, cs) ∈ bicliqueCandidates edge rows cols := by
          rw [hcand, ← h]
          exact foldl_pickLarger_mem rest q
        rw [mem_bicliqueCandidates] at hmem
        refine ⟨hmem.1, hmem.2.1, hmem.2.2.2.2, ?_⟩
        intro rs' cs' hrs hcs hrne hcne hbi
        have hmem' : ((rs', cs') : List Nat × List Nat) ∈
            bicliqueCandidates edge rows cols := by
          rw [mem_bicliqueCandidates]
          exact ⟨hrs, hcs, hrne, hcne, hbi⟩
        rw [hcand] at hmem'
        have := foldl_pickLarger_ge rest q (rs', cs') hmem'
        rw [h] at this
        simpa [area] using this

theorem find_max_clique_spec_witness :
    (([0, 1] : List Nat) ≠ [] ∧ ([2] : List Nat) ≠ [] ∧
      (∀ r ∈ ([0, 1] : List Nat), ∀ c ∈ ([2] : List Nat),
        (fun _ _ => false) r c = false) ∧
      find_max_clique (fun _ _ => false) [0, 1] [2] = none) ∧
    (isBiclique (fun _ _ => true) [0, 1] [2, 3] = true ∧
      find_max_clique (fun _ _ => true) [0, 1] [2, 3] = some ([0, 1], [2, 3])) :=
  ⟨⟨by decide, by decide, by decide,
      (find_max_clique_spec (fun _ _ => false) [0, 1] [2]).1
        (by decide) (by decide) (by decide)⟩,
    ⟨by decide,
      (find_max_clique_spec (fun _ _ => true) [0, 1] [2, 3]).2.1 (by decide)⟩⟩

/-- Modelled from the spec: `SNN._get_anchors` of §4.2–4.3 from the absent
`algorithms/snn.py`.  A matrix entry is embedded as `Option ℚ` (`none` is
the NaN sentinel); the compatibility edge between a candidate row `r` and
a candidate column `c` holds iff entry `(r, c)` is observed, and the
anchor pair is the result of the max-biclique search on that graph. -/
def get_anchors (X : Nat → Nat → Option ℚ) (rows cols : List Nat) :
    Option (List Nat × List Nat) :=
  find_max_clique (fun r c => (X r c).isSome) rows cols

/-- The anchor cache: an association list from (frozen row-candidate set,
frozen column-candidate set) keys to search results, mirroring the
memoization decorator's mapping. -/
abbrev AnchorCache : Type :=
  List ((List Nat × List Nat) × Option (List Nat × List Nat))

def lookupCache : AnchorCache → List Nat × List Nat →
    Option (Option (List Nat × List Nat))
  | [], _ => none
  | (k, v) :: rest, key => if k = key then some v else lookupCache rest key

/-- Modelled from the spec §4.3: the memoizing wrapper around
`get_anchors`.  A hit returns the cached value and leaves the cache
unchanged; a miss computes the result and stores it under the key.  The
empty cache models the state right after `cache.clear()`. -/
def get_anchors_cached (X : Nat → Nat → Option ℚ) (cache : AnchorCache)
    (key : List Nat × List Nat) :
    Option (List Nat × List Nat) × AnchorCache :=
  match lookupCache cache key with
  | some v => (v, cache)
  | none => (get_anchors X key.1 key.2, (key, get_anchors X key.1 key.2) :: cache)

/-- A cache state is warm for matrix `X` when every stored entry equals
the recomputed result for its key — exactly the states reachable by
querying `X` any number of times in any order after a clear. -/
abbrev cacheValid (X : Nat → Nat → Option ℚ) (cache : AnchorCache) : Prop :=
  ∀ e ∈ cache, e.2 = get_anchors X e.1.1 e.1.2

theorem lookupCache_mem (cache : AnchorCache) (key : List Nat × List Nat)
    (v : Option (List Nat × List Nat)) (h : lookupCache cache key = some v) :
    (key, v) ∈ cache := by
  induction cache with
  | nil => exact absurd h (by simp [lookupCache])
  | cons e rest ih =>
      obtain ⟨k, w⟩ := e
      by_cases hk : k = key
      · subst hk
        rw [lookupCache, if_pos rfl] at h
        obtain rfl : w = v := by simpa using h
        exact List.mem_cons_self _ _
      · rw [lookupCache, if_neg hk] at h
        exact List.mem_cons_of_mem _ (ih h)

/-- C5: anchor memoization is behavior-preserving.  For every matrix and
every frozen row/column key, the cached query on any warm cache returns
exactly the recomputed (cold, just-cleared) result, and the cache stays
warm, so results are independent of call order. -/
theorem get_anchors_cached_pure (X : Nat → Nat → Option ℚ)
    (cache : AnchorCache) (key : List Nat × List Nat)
    (hvalid : cacheValid X cache) :
    (get_anchors_cached X cache key).1 = get_anchors X key.1 key.2 ∧
    (get_anchors_cached X cache key).1 = (get_anchors_cached X [] key).1 ∧
    cacheValid X (get_anchors_cached X cache key).2 := by
  have hcold : (get_anchors_cached X [] key).1 = get_anchors X key.1 key.2 := by
    rfl
  have hwarm : (get_anchors_cached X cache key).1 =
      get_anchors X key.1 key.2 := by
    rw [get_anchors_cached]
    cases h : lookupCache cache key with
    | none => rfl
    | some v => exact hvalid (key, v) (lookupCache_mem cache key v h)
  refine ⟨hwarm, by rw [hwarm, hcold], ?_⟩
  cases h : lookupCache cache key with
  | none =>
      intro e he
      simp only [get_anchors_cached, h] at he
      rcases List.mem_cons.1 he with he | he
      · rw [he]
      · exact hvalid e he
  | some v =>
      intro e he
      simp only [get_anchors_cached, h] at he
      exact hvalid e he

/-- A small concrete observed/missing pattern used by the witnesses. -/
def exampleMatrix : Nat → Nat → Option ℚ :=
  fun r c =>
    if r = 1 && c = 0 then some 5
    else if r = 0 && c = 1 then some 7
    else none

theorem get_anchors_cached_pure_witness :
    cacheValid exampleMatrix [] ∧
    ((get_anchors_cached exampleMatrix [] ([1], [1])).1 =
        get_anchors exampleMatrix [1] [1] ∧
      (get_anchors_cached exampleMatrix [] ([1], [1])).1 =
        (get_anchors_cached exampleMatrix [] ([1], [1])).1 ∧
      cacheValid exampleMatrix (get_anchors_cached exampleMatrix [] ([1], [1])).2) :=
  ⟨fun e he => absurd he (List.not_mem_nil e),
    get_anchors_cached_pure exampleMatrix [] ([1], [1])
      (fun e he => absurd he (List.not_mem_nil e))⟩

/-- Modelled from the spec §4.7/§8: `matrix_full`, the derived denoised
copy built by imputing every missing cell of `X` through repeated
single-cell prediction (`predictCell r c` yields the `(value, feasible)`
pair for cell `(r, c)`): an observed cell is copied through unchanged, a
missing cell receives the predicted value when feasible and stays missing
otherwise.  The embedding is purely functional, so building `matrix_full`
cannot mutate `X`. -/
def matrix_full (predictFn : Nat → Nat → Option ℚ × Bool)
    (X : Nat → Nat → Option ℚ) : Nat → Nat → Option ℚ :=
  fun r c =>
    match X r c with
    | some v => some v
    | none => if (predictFn r c).2 then (predictFn r c).1 else none

/-- C4: building `matrix_full` by imputing every missing cell leaves every
originally-observed cell unchanged, for any single-cell predictor; the
input matrix itself is never mutated (the construction is a pure function
of `X`). -/
theorem matrix_full_preserves_observed
    (predictFn : Nat → Nat → Option ℚ × Bool) (X : Nat → Nat → Option ℚ)
    (r c : Nat) (v : ℚ) (h : X r c = some v) :
    matrix_full predictFn X r c = some v := by
  rw [matrix_full, h]

theorem matrix_full_preserves_observed_witness :
    exampleMatrix 1 0 = some 5 ∧
    matrix_full (fun _ _ => (some 0, true)) exampleMatrix 1 0 = some 5 :=
  ⟨rfl, matrix_full_preserves_observed (fun _ _ => (some 0, true))
    exampleMatrix 1 0 5 rfl⟩

/-- Candidate donor rows for a target cell in column `c`: all rows (of the
`numRows × numCols` matrix) with an observed value in column `c`. -/
def obsRows (X : Nat → Nat → Option ℚ) (numRows c : Nat) : List Nat :=
  (List.range numRows).filter (fun r => (X r c).isSome)

/-- Candidate donor columns for a target cell in row `r`: all columns with
an observed value in row `r`. -/
def obsCols (X : Nat → Nat → Option ℚ) (numCols r : Nat) : List Nat :=
  (List.range numCols).filter (fun c => (X r c).isSome)

/-- Modelled from the spec §4.4–4.7: `SNN._predict` from the absent
`algorithms/snn.py`.  The rank-estimation / principal-component-regression
stage (§4.4–4.5, a numerical SVD) is abstracted as `imputer`, which
returns `none` exactly when the rank is degenerate or the regression is
infeasible.  The pipeline finds anchors over the candidate pools and
passes them to the imputer; every failure is a `(none, false)` result,
never an exception (the model is a total function). -/
def predictCell (imputer : List Nat × List Nat → Option ℚ)
    (X : Nat → Nat → Option ℚ) (numRows numCols : Nat) (cell : Nat × Nat) :
    Option ℚ × Bool :=
  match get_anchors X (obsRows X numRows cell.2) (obsCols X numCols cell.1) with
  | none => (none, false)
  | some anchor =>
      match imputer anchor with
      | none => (none, false)
      | some v => (some v, true)

/-- C6: infeasibility is never surfaced as an exception.  `predictCell`
always returns a `(value, feasible)` pair (it is a total function);
absence of a usable anchor biclique or a degenerate rank yields
`feasible = false`; an empty compatibility graph degrades to the
`none` (`False, False`) anchor result and hence to `(none, false)`; and
`feasible = true` always comes with a defined value. -/
theorem predictCell_feasibility (imputer : List Nat × List Nat → Option ℚ)
    (X : Nat → Nat → Option ℚ) (numRows numCols : Nat) (cell : Nat × Nat) :
    (∃ v feasible, predictCell imputer X numRows numCols cell = (v, feasible)) ∧
    (get_anchors X (obsRows X numRows cell.2) (obsCols X numCols cell.1) = none →
        predictCell imputer X numRows numCols cell = (none, false)) ∧
    (∀ anchor,
        get_anchors X (obsRows X numRows cell.2) (obsCols X numCols cell.1) =
          some anchor →
        imputer anchor = none →
        predictCell imputer X numRows numCols cell = (none, false)) ∧
    (obsRows X numRows cell.2 ≠ [] → obsCols X numCols cell.1 ≠ [] →
        (∀ r ∈ obsRows X numRows cell.2, ∀ c ∈ obsCols X numCols cell.1,
          (X r c).isSome = false) →
        predictCell imputer X numRows numCols cell = (none, false)) ∧
    ((predictCell imputer X numRows numCols cell).2 = true →
        ∃ v, (predictCell imputer X numRows numCols cell).1 = some v) := by
  refine ⟨⟨_, _, rfl⟩, ?_, ?_, ?_, ?_⟩
  · intro h
    simp [predictCell, h]
  · intro anchor ha hi
    simp [predictCell, ha, hi]
  · intro hr hc hnone
    have hnoanchor :
        get_anchors X (obsRows X numRows cell.2) (obsCols X numCols cell.1)
          = none :=
      find_max_clique_no_edges _ _ _ hr hc hnone
    simp [predictCell, hnoanchor]
  · intro h
    cases ha : get_anchors X (obsRows X numRows cell.2)
        (obsCols X numCols cell.1) with
    | none => simp [predictCell, ha] at h
    | some anchor =>
        cases hi : imputer anchor with
        | none => simp [predictCell, ha, hi] at h
        | some v => exact ⟨v, by simp [predictCell, ha, hi]⟩

theorem predictCell_feasibility_witness :
    (obsRows exampleMatrix 2 0 ≠ [] ∧ obsCols exampleMatrix 2 0 ≠ [] ∧
      (∀ r ∈ obsRows exampleMatrix 2 0, ∀ c ∈ obsCols exampleMatrix 2 0,
        (exampleMatrix r c).isSome = false)) ∧
    predictCell (fun _ => none) exampleMatrix 2 2 (0, 0) = (none, false) :=
  ⟨⟨by decide, by decide, by decide⟩,
    (predictCell_feasibility (fun _ => none) exampleMatrix 2 2 (0, 0)).2.2.2.1
      (by decide) (by decide) (by decide)⟩

/-- Zero-padded two-digit exponent, as CPython prints float exponents. -/
def padExp (e : Nat) : String :=
  if e < 10 then "0" ++ toString e else toString e

/-- Modelled from the spec: Python `repr` of a finite positive float whose
shortest decimal representation is `digits × 10 ^ exp` (`digits` not
divisible by 10).  CPython renders fixed-point notation when the decimal
exponent of the leading digit lies in `[-4, 16)` and scientific notation
otherwise, so `1/10` renders as `"0.1"` and `1/10^7` as `"1e-07"`. -/
def floatRepr (digits : Nat) (exp : Int) : String :=
  let s := toString digits
  let sci : Int := exp + s.length - 1
  if (-4 : Int) ≤ sci ∧ sci < 16 then
    if 0 ≤ exp then
      s ++ String.mk (List.replicate exp.toNat '0') ++ ".0"
    else
      let p := (-exp).toNat
      if s.length ≤ p then
        "0." ++ String.mk (List.replicate (p - s.length) '0') ++ s
      else
        s.take (s.length - p) ++ "." ++ s.drop (s.length - p)
  else
    s.take 1 ++ (if 1 < s.length then "." ++ s.drop 1 else "") ++
      "e" ++ (if sci < 0 then "-" else "+") ++ padExp sci.natAbs

/-- Python `repr` of an optional float (`None` when absent). -/
def reprOptFloat : Option (Nat × Int) → String
  | none => "None"
  | some (d, e) => floatRepr d e

def pyBool (b : Bool) : String := if b then "True" else "False"

def pyStr (s : String) : String := "'" ++ s ++ "'"

def pyOptNat : Option Nat → String
  | none => "None"
  | some n => toString n

/-- Modelled from the spec §3/§6: the immutable configuration record of a
fitted estimator.  Float-valued fields carry their shortest decimal
representation `digits × 10 ^ exp`; `metric` is the metric name fixed at
`fit` time. -/
structure SNNConfig where
  linear_span_eps : Nat × Int
  max_rank : Option Nat
  max_value : Option (Nat × Int)
  metric : String
  min_singular_value : Nat × Int
  min_value : Option (Nat × Int)
  n_neighbors : Nat
  random_splits : Bool
  spectral_t : Option (Nat × Int)
  subspace_eps : Nat × Int
  verbose : Bool
  weights : String

/-- Modelled from the spec §4.7: the configuration fields with their
rendered values, in the fixed field order of the representation. -/
def configFields (c : SNNConfig) : List (String × String) :=
  [("linear_span_eps", floatRepr c.linear_span_eps.1 c.linear_span_eps.2),
   ("max_rank", pyOptNat c.max_rank),
   ("max_value", reprOptFloat c.max_value),
   ("metric", pyStr c.metric),
   ("min_singular_value",
     floatRepr c.min_singular_value.1 c.min_singular_value.2),
   ("min_value", reprOptFloat c.min_value),
   ("n_neighbors", toString c.n_neighbors),
   ("random_splits", pyBool c.random_splits),
   ("spectral_t", reprOptFloat c.spectral_t),
   ("subspace_eps", floatRepr c.subspace_eps.1 c.subspace_eps.2),
   ("verbose", pyBool c.verbose),
   ("weights", pyStr c.weights)]

/-- Modelled from the spec §4.7: `str`/`repr` of a fitted estimator,
rendering every configuration field as `name=value`, comma-separated
inside `SNN(...)`. -/
def reprSNN (c : SNNConfig) : String :=
  "SNN(" ++
    String.intercalate ", " ((configFields c).map (fun p => p.1 ++ "=" ++ p.2))
    ++ ")"

/-- The documented default configuration (§6), as fitted on the `sales`
metric. -/
def defaultConfig : SNNConfig :=
  { linear_span_eps := (1, -1)
    max_rank := none
    max_value := none
    metric := "sales"
    min_singular_value := (1, -7)
    min_value := none
    n_neighbors := 1
    random_splits := false
    spectral_t := none
    subspace_eps := (1, -1)
    verbose := false
    weights := "uniform" }

/-- Strict lexicographic order on character lists (by character code). -/
def charListLt : List Char → List Char → Bool
  | [], [] => false
  | [], _ :: _ => true
  | _ :: _, [] => false
  | a :: as, b :: bs =>
      if a < b then true else if b < a then false else charListLt as bs

/-- Whether a list of names is strictly increasing in lexicographic
(alphabetical) order. -/
def alphabetical : List String → Bool
  | [] => true
  | [_] => true
  | a :: b :: rest => charListLt a.data b.data && alphabetical (b :: rest)

/-- C7: the estimator representation is a pure function of the
configuration record that renders every configuration field in a fixed,
alphabetically sorted order, and on the default configuration it equals
the snapshot string from the test suite. -/
theorem reprSNN_spec :
    (∀ c : SNNConfig, (configFields c).map Prod.fst =
      ["linear_span_eps", "max_rank", "max_value", "metric",
       "min_singular_value", "min_value", "n_neighbors", "random_splits",
       "spectral_t", "subspace_eps", "verbose", "weights"]) ∧
    alphabetical
      ["linear_span_eps", "max_rank", "max_value", "metric",
       "min_singular_value", "min_value", "n_neighbors", "random_splits",
       "spectral_t", "subspace_eps", "verbose", "weights"] = true ∧
    reprSNN defaultConfig =
      "SNN(linear_span_eps=0.1, max_rank=None, max_value=None," ++
        " metric='sales', min_singular_value=1e-07, min_value=None," ++
        " n_neighbors=1, random_splits=False, spectral_t=None," ++
        " subspace_eps=0.1, verbose=False, weights='uniform')" := by
  refine ⟨fun c => rfl, by decide, by rfl⟩

end SNNModel

namespace SynGyn

/-- One entry of the `effects` list consumed by
`SyntheticDataModule.add_effects` (`syn_gyn_module.py:304`): the
subpopulation selector (after the source's `None`-to-all-units and
`subpopulation()` call have been resolved to a boolean unit predicate),
the intervention number, the metric index (`self.metrics.index(metric)`),
and the effect size. -/
structure EffectApp where
  subpop : Nat → Bool
  intervention : Nat
  metricIndex : Nat
  effectSize : ℚ

/-- `self.tensor[subpopulation, :, i, m].mean()`: the mean of the tensor
over the selected units and all timesteps at intervention `i` and metric
`m`.  (Division by zero yields 0 in `ℚ`; the source would produce NaN on
an empty subpopulation, which no frame claim depends on.) -/
def sliceMean (numUnits numTimesteps : Nat)
    (tensor : Nat → Nat → Nat → Nat → ℚ) (subpop : Nat → Bool)
    (i m : Nat) : ℚ :=
  let units := (List.range numUnits).filter (fun u => subpop u)
  (units.map (fun u =>
      ((List.range numTimesteps).map (fun t => tensor u t i m)).sum)).sum /
    ((units.length * numTimesteps : Nat) : ℚ)

/-- One iteration of the `for effect in effects` loop of `add_effects`
(`syn_gyn_module.py:312`–`338`): on the slice
`tensor[subpopulation, :, intervention_number, metric_index]` the code
adds `effect_size * control - (c_eff_size - control)` and then the noise
term `0.00 * control * np.random.normal(...)` (the normal draw is
abstracted as `noise`; its coefficient is literally `0.00` in the
source); every entry outside the slice is untouched. -/
def applyEffect (numUnits numTimesteps : Nat)
    (tensor : Nat → Nat → Nat → Nat → ℚ) (e : EffectApp)
    (noise : Nat → Nat → ℚ) : Nat → Nat → Nat → Nat → ℚ :=
  let control := sliceMean numUnits numTimesteps tensor e.subpop 0 e.metricIndex
  let c_eff_size :=
    sliceMean numUnits numTimesteps tensor e.subpop e.intervention e.metricIndex
  fun u t i m =>
    if e.subpop u = true ∧ i = e.intervention ∧ m = e.metricIndex then
      tensor u t i m + (e.effectSize * control - (c_eff_size - control)) +
        0.00 * control * noise u t
    else tensor u t i m

/-- `SyntheticDataModule.add_effects` (`syn_gyn_module.py:304`): fold the
effect applications over the tensor, each paired with its abstracted
noise draw.  (The trailing `self._add_metrics()` call reloads dataframe
columns and does not touch the tensor.) -/
def add_effects (numUnits numTimesteps : Nat)
    (tensor : Nat → Nat → Nat → Nat → ℚ)
    (effects : List (EffectApp × (Nat → Nat → ℚ))) :
    Nat → Nat → Nat → Nat → ℚ :=
  effects.foldl
    (fun tsr en => applyEffect numUnits numTimesteps tsr en.1 en.2) tensor

/-- C10: `add_effects` modifies the tensor only on the targeted slices:
every entry whose unit is outside the subpopulation, or whose
intervention index differs from the effect's intervention number, or
whose metric index differs from the effect's metric index — for each
applied effect — is unchanged after the call. -/
theorem add_effects_frame (numUnits numTimesteps : Nat)
    (tensor : Nat → Nat → Nat → Nat → ℚ)
    (effects : List (EffectApp × (Nat → Nat → ℚ))) (u t i m : Nat)
    (houtside : ∀ en ∈ effects,
      ¬(en.1.subpop u = true ∧ i = en.1.intervention ∧
        m = en.1.metricIndex)) :
    add_effects numUnits numTimesteps tensor effects u t i m =
      tensor u t i m := by
  induction effects generalizing tensor with
  | nil => rfl
  | cons en rest ih =>
      have hrest : ∀ e ∈ rest,
          ¬(e.1.subpop u = true ∧ i = e.1.intervention ∧
            m = e.1.metricIndex) :=
        fun e he => houtside e (List.mem_cons_of_mem _ he)
      have hhead := houtside en (List.mem_cons_self _ _)
      calc add_effects numUnits numTimesteps tensor (en :: rest) u t i m
          = add_effects numUnits numTimesteps
              (applyEffect numUnits numTimesteps tensor en.1 en.2)
              rest u t i m := rfl
        _ = applyEffect numUnits numTimesteps tensor en.1 en.2 u t i m :=
            ih _ hrest
        _ = tensor u t i m := by
              simp only [applyEffect]
              exact if_neg hhead

theorem add_effects_frame_witness :
    (∀ en ∈ ([(⟨fun u => u == 0, 1, 0, 2⟩, fun _ _ => 0)] :
        List (EffectApp × (Nat → Nat → ℚ))),
      ¬(en.1.subpop 1 = true ∧ 1 = en.1.intervention ∧
        0 = en.1.metricIndex)) ∧
    add_effects 2 2 (fun u t i m => (u + t + i + m : ℚ))
        [(⟨fun u => u == 0, 1, 0, 2⟩, fun _ _ => 0)] 1 0 1 0 =
      (fun u t i m => (u + t + i + m : ℚ)) 1 0 1 0 := by
  constructor
  · intro en hen
    rw [List.mem_singleton] at hen
    subst hen
    simp
  · exact add_effects_frame 2 2 (fun u t i m => (u + t + i + m : ℚ))
      [(⟨fun u => u == 0, 1, 0, 2⟩, fun _ _ => 0)] 1 0 1 0
      (by intro en hen
          rw [List.mem_singleton] at hen
          subst hen
          simp)

/-- The slicing loop of `_split_categories` (`syn_gyn_module.py:214`–
`217`): `for ind in indices + [n]: subgroups.append(cat_shuf[start:ind]);
start = ind`, beginning at `start`.  `cat_shuf[start:ind]` is
`(l.drop start).take (ind - start)`. -/
def sliceGroups {α : Type} (l : List α) : Nat → List Nat → List (List α)
  | _, [] => []
  | start, c :: rest => (l.drop start).take (c - start) :: sliceGroups l c rest

/-- `_split_categories(categories, divisions)` (`syn_gyn_module.py:190`),
with its two random draws abstracted as inputs: `cat_shuf` is the
shuffled copy of `categories` (`np.random.shuffle`) and `indices` the
sorted list of distinct cut points (`np.random.choice(np.arange(n-1),
replace=False, size=divisions-1) + 1`, sorted, hence strictly increasing
values in `[1, n-1]`).  The subgroups are the contiguous slices of
`cat_shuf` between consecutive cut points, the last cut being `n`. -/
def split_categories {α : Type} (cat_shuf : List α) (indices : List Nat) :
    List (List α) :=
  sliceGroups cat_shuf 0 (indices ++ [cat_shuf.length])

theorem length_sliceGroups {α : Type} (l : List α) (cuts : List Nat)
    (start : Nat) : (sliceGroups l start cuts).length = cuts.length := by
  induction cuts generalizing start with
  | nil => rfl
  | cons c rest ih => simp [sliceGroups, ih]

theorem le_getLastD_of_chain (rest : List Nat) (c : Nat)
    (h : List.Chain (· ≤ ·) c rest) : c ≤ rest.getLastD c := by
  induction rest generalizing c with
  | nil => exact le_refl c
  | cons d rest ih =>
      rw [List.chain_cons] at h
      rw [List.getLastD_cons]
      exact le_trans h.1 (ih d h.2)

theorem getLastD_append_singleton {α : Type} (l : List α) (b d : α) :
    (l ++ [b]).getLastD d = b := by
  induction l generalizing d with
  | nil => rfl
  | cons a rest ih => rw [List.cons_append, List.getLastD_cons, ih]

theorem join_sliceGroups {α : Type} (l : List α) (cuts : List Nat)
    (start : Nat) (h : List.Chain (· ≤ ·) start cuts) :
    (sliceGroups l start cuts).flatten =
      (l.drop start).take (cuts.getLastD start - start) := by
  induction cuts generalizing start with
  | nil => simp [sliceGroups]
  | cons c rest ih =>
      rw [List.chain_cons] at h
      have hcL : c ≤ rest.getLastD c := le_getLastD_of_chain rest c h.2
      rw [sliceGroups, List.flatten_cons, ih c h.2, List.getLastD_cons]
      have hsplit : rest.getLastD c - start = (c - start) + (rest.getLastD c - c) := by
        omega
      rw [hsplit, List.take_add]
      congr 1
      rw [List.drop_drop]
      congr 2
      omega

theorem sliceGroups_ne_nil {α : Type} (l : List α) (cuts : List Nat)
    (start : Nat) (hchain : List.Chain (· < ·) start cuts)
    (hbound : ∀ cut ∈ cuts, cut ≤ l.length) :
    ∀ g ∈ sliceGroups l start cuts, g ≠ [] := by
  induction cuts generalizing start with
  | nil => intro g hg; exact absurd hg (List.not_mem_nil g)
  | cons c rest ih =>
      rw [List.chain_cons] at hchain
      intro g hg
      rcases List.mem_cons.1 hg with hg | hg
      · subst hg
        have hc : c ≤ l.length := hbound c (List.mem_cons_self _ _)
        have hlen : ((l.drop start).take (c - start)).length = c - start := by
          rw [List.length_take, List.length_drop]
          omega
        intro hnil
        rw [hnil] at hlen
        simp at hlen
        omega
      · exact ih c hchain.2
          (fun cut hcut => hbound cut (List.mem_cons_of_mem _ hcut)) g hg

/-- C9: for every list of categories and every `divisions` with
`1 ≤ divisions ≤ len(categories)`, `_split_categories` returns exactly
`divisions` groups, each non-empty, whose concatenation is a permutation
of the input categories.  The hypotheses state exactly what the source's
random draws guarantee: the shuffle is a permutation, and the cut points
(with the final cut `n` appended) are strictly increasing and at most
`n`. -/
theorem split_categories_spec {α : Type} (categories cat_shuf : List α)
    (indices : List Nat) (divisions : Nat)
    (hperm : cat_shuf.Perm categories)
    (hlen : indices.length = divisions - 1) (hdiv : 1 ≤ divisions)
    (hchain : List.Chain (· < ·) 0 (indices ++ [cat_shuf.length]))
    (hbound : ∀ i ∈ indices, i < cat_shuf.length) :
    (split_categories cat_shuf indices).length = divisions ∧
    (∀ g ∈ split_categories cat_shuf indices, g ≠ []) ∧
    (split_categories cat_shuf indices).flatten.Perm categories := by
  refine ⟨?_, ?_, ?_⟩
  · rw [split_categories, length_sliceGroups, List.length_append,
      List.length_singleton, hlen]
    omega
  · refine sliceGroups_ne_nil cat_shuf _ 0 hchain ?_
    intro cut hcut
    rcases List.mem_append.1 hcut with hcut | hcut
    · exact le_of_lt (hbound cut hcut)
    · rw [List.mem_singleton] at hcut
      omega
  · have hflat : (split_categories cat_shuf indices).flatten = cat_shuf := by
      rw [split_categories,
        join_sliceGroups cat_shuf _ 0 (hchain.imp (fun _ _ => le_of_lt)),
        getLastD_append_singleton, List.drop_zero, Nat.sub_zero,
        List.take_length]
    rw [hflat]
    exact hperm

theorem split_categories_spec_witness :
    (([3, 1, 2, 4] : List Nat).Perm [1, 2, 3, 4] ∧
      ([2] : List Nat).length = 2 - 1 ∧ 1 ≤ 2 ∧
      List.Chain (· < ·) 0 ([2] ++ [([3, 1, 2, 4] : List Nat).length]) ∧
      (∀ i ∈ ([2] : List Nat), i < ([3, 1, 2, 4] : List Nat).length)) ∧
    ((split_categories ([3, 1, 2, 4] : List Nat) [2]).length = 2 ∧
      (∀ g ∈ split_categories ([3, 1, 2, 4] : List Nat) [2], g ≠ []) ∧
      (split_categories ([3, 1, 2, 4] : List Nat) [2]).flatten.Perm
        [1, 2, 3, 4]) :=
  ⟨⟨by decide, by decide, by decide, by simp [List.chain_cons], by decide⟩,
    split_categories_spec [1, 2, 3, 4] [3, 1, 2, 4] [2] 2 (by decide)
      (by decide) (by decide) (by simp [List.chain_cons]) (by decide)⟩

/-- Per-metric configuration consumed by `sample`
(`syn_gyn_module.py:416`–`427`): whether the metric is a difference
metric (then the chosen column is cumulatively summed over time and
shifted by the per-unit initial values), and the optional clip range. -/
structure MetricSpec where
  difference : Bool
  initValues : Nat → ℚ
  clipRange : Option (ℚ × ℚ)

/-- The subsampled tensor built by `sample` (`syn_gyn_module.py:393`–
`404`): entry `(u, t, mi)` selects `tensor[u, t, assign(u, t), mi]` and is
then overwritten with NaN (`none`) wherever `observation_mask` is set.
The nested lists carry the `(num_units, num_timesteps, num_metrics)`
shape. -/
def sampleTensor (numUnits numTimesteps numMetrics : Nat)
    (tensor : Nat → Nat → Nat → Nat → ℚ) (assign : Nat → Nat → Nat)
    (mask : Nat → Nat → Bool) : List (List (List (Option ℚ))) :=
  (List.range numUnits).map (fun u =>
    (List.range numTimesteps).map (fun t =>
      (List.range numMetrics).map (fun mi =>
        if mask u t then none else some (tensor u t (assign u t) mi))))

/-- The chosen value of metric `mi` for the dataframe row `(u, t)`
(`syn_gyn_module.py:411`–`427`): pick the column of the assigned
intervention; for a difference metric take the cumulative sum over time
plus the unit's initial value; then clip to the metric's clip range. -/
def chosenMetric (tensor : Nat → Nat → Nat → Nat → ℚ)
    (assign : Nat → Nat → Nat) (mi : Nat) (spec : MetricSpec)
    (u t : Nat) : ℚ :=
  let raw : Nat → ℚ := fun s => tensor u s (assign u s) mi
  let v := if spec.difference then
      ((List.range (t + 1)).map raw).sum + spec.initValues u
    else raw t
  match spec.clipRange with
  | none => v
  | some (lo, hi) => min (max v lo) hi

/-- One dataframe row of the sampled long-format table: the `unit_id` and
`time` key columns (`_init_df`, `syn_gyn_module.py:521`–`540`, sorted by
`(unit_id, time)`) and one value column per metric.  A masked value is
`none` (NaN) before `dropna`. -/
structure SampleRow where
  unit_id : Nat
  time : Nat
  metricValues : List (Option ℚ)

/-- The row of the pre-`dropna` dataframe at `(u, t)`: each metric column
holds the chosen metric value, or NaN when the observation mask is set
(`chosen_metric[observation_mask.flatten()] = np.nan`,
`syn_gyn_module.py:428`). -/
def sampleRowAt (tensor : Nat → Nat → Nat → Nat → ℚ)
    (assign : Nat → Nat → Nat) (mask : Nat → Nat → Bool)
    (metrics : List MetricSpec) (u t : Nat) : SampleRow :=
  { unit_id := u, time := t,
    metricValues := metrics.enum.map (fun p =>
      if mask u t then none
      else some (chosenMetric tensor assign p.1 p.2 u t)) }

/-- The dataframe returned by `sample` (`syn_gyn_module.py:407`–`444`):
rows in `(unit_id, time)` order, metric columns chosen per the
intervention assignment, masked entries set to NaN, and `dropna()`
removing every row holding a NaN. -/
def sampleDf (numUnits numTimesteps : Nat)
    (tensor : Nat → Nat → Nat → Nat → ℚ) (assign : Nat → Nat → Nat)
    (mask : Nat → Nat → Bool) (metrics : List MetricSpec) :
    List SampleRow :=
  ((List.range numUnits).bind (fun u =>
    (List.range numTimesteps).map (fun t =>
      sampleRowAt tensor assign mask metrics u t))).filter
    (fun row => row.metricValues.all Option.isSome)

/-- `SyntheticDataModule.sample` (`syn_gyn_module.py:388`): returns the
subsampled tensor and the sampled dataframe. -/
def sample (numUnits numTimesteps : Nat)
    (tensor : Nat → Nat → Nat → Nat → ℚ) (assign : Nat → Nat → Nat)
    (mask : Nat → Nat → Bool) (metrics : List MetricSpec) :
    List (List (List (Option ℚ))) × List SampleRow :=
  (sampleTensor numUnits numTimesteps metrics.length tensor assign mask,
    sampleDf numUnits numTimesteps tensor assign mask metrics)

theorem getD_range_map {α : Type} (f : Nat → α) (n u : Nat) (d : α)
    (h : u < n) : ((List.range n).map f).getD u d = f u := by
  rw [List.getD_eq_getElem?_getD, List.getElem?_map, List.getElem?_range h]
  rfl

/-- C8: `sample(intervention_assignments, observation_mask)` returns a
dataframe carrying the `unit_id` and `time` key columns plus one value
column per metric with no missing values — every row whose selected entry
is masked is dropped, every unmasked row is kept — together with a
subsampled tensor of shape `(num_units, num_timesteps, num_metrics)`
holding NaN exactly at the masked `(unit, time)` positions. -/
theorem sample_spec (numUnits numTimesteps : Nat)
    (tensor : Nat → Nat → Nat → Nat → ℚ) (assign : Nat → Nat → Nat)
    (mask : Nat → Nat → Bool) (metrics : List MetricSpec)
    (hm : metrics ≠ []) :
    ((sample numUnits numTimesteps tensor assign mask metrics).1.length =
        numUnits ∧
      (∀ plane ∈ (sample numUnits numTimesteps tensor assign mask metrics).1,
        plane.length = numTimesteps ∧
          ∀ line ∈ plane, line.length = metrics.length) ∧
      (∀ u t mi, u < numUnits → t < numTimesteps → mi < metrics.length →
        (((((sample numUnits numTimesteps tensor assign mask
              metrics).1.getD u []).getD t []).getD mi (some 0) = none) ↔
          mask u t = true))) ∧
    ((∀ row ∈ (sample numUnits numTimesteps tensor assign mask metrics).2,
        row.unit_id < numUnits ∧ row.time < numTimesteps ∧
          mask row.unit_id row.time = false ∧
          row.metricValues.length = metrics.length ∧
          ∀ v ∈ row.metricValues, v.isSome = true) ∧
      (∀ u t, u < numUnits → t < numTimesteps → mask u t = false →
        sampleRowAt tensor assign mask metrics u t ∈
          (sample numUnits numTimesteps tensor assign mask metrics).2)) := by
  refine ⟨⟨?_, ?_, ?_⟩, ?_, ?_⟩
  · simp [sample, sampleTensor]
  · intro plane hplane
    simp only [sample, sampleTensor, List.mem_map] at hplane
    obtain ⟨u, _, rfl⟩ := hplane
    constructor
    · simp
    · intro line hline
      simp only [List.mem_map] at hline
      obtain ⟨t, _, rfl⟩ := hline
      simp
  · intro u t mi hu ht hmi
    have hentry : ((((sample numUnits numTimesteps tensor assign mask
          metrics).1.getD u []).getD t []).getD mi (some 0)) =
        (if mask u t then none else some (tensor u t (assign u t) mi)) := by
      simp only [sample, sampleTensor]
      rw [getD_range_map _ _ _ _ hu, getD_range_map _ _ _ _ ht,
        getD_range_map _ _ _ _ hmi]
    rw [hentry]
    cases hmask : mask u t <;> simp
  · intro row hrow
    simp only [sample, sampleDf, List.mem_filter, List.mem_bind,
      List.mem_map, List.mem_range] at hrow
    obtain ⟨⟨u, hu, t, ht, rfl⟩, hall⟩ := hrow
    rw [List.all_eq_true] at hall
    have hmask : mask u t = false := by
      by_contra hmaskne
      rw [Bool.not_eq_false] at hmaskne
      have henum : metrics.enum ≠ [] := by
        intro hnil
        have := congrArg List.length hnil
        rw [List.enum_length] at this
        exact hm (List.eq_nil_of_length_eq_zero this)
      obtain ⟨p, hp⟩ := List.exists_mem_of_ne_nil _ henum
      have hnone : (none : Option ℚ) ∈
          (sampleRowAt tensor assign mask metrics u t).metricValues := by
        simp only [sampleRowAt]
        exact List.mem_map.2 ⟨p, hp, by rw [if_pos hmaskne]⟩
      have := hall _ hnone
      simp at this
    refine ⟨hu, ht, hmask, ?_, fun v hv => hall v hv⟩
    simp [sampleRowAt, List.enum_length]
  · intro u t hu ht hmask
    simp only [sample, sampleDf, List.mem_filter, List.mem_bind,
      List.mem_map, List.mem_range]
    refine ⟨⟨u, hu, t, ht, rfl⟩, ?_⟩
    rw [List.all_eq_true]
    intro v hv
    simp only [sampleRowAt, List.mem_map] at hv
    obtain ⟨p, _, rfl⟩ := hv
    rw [if_neg (by rw [hmask]; exact Bool.false_ne_true)]
    rfl

/-- A tiny concrete sampling scenario for the witness: one unit, two
timesteps, one plain metric, constant tensor, control assignment, and the
second timestep masked. -/
def exTensor : Nat → Nat → Nat → Nat → ℚ := fun _ _ _ _ => 3

def exAssign : Nat → Nat → Nat := fun _ _ => 0

def exMask : Nat → Nat → Bool := fun _ t => t == 1

def exMetrics : List MetricSpec := [⟨false, fun _ => 0, none⟩]

theorem sample_spec_witness :
    exMetrics ≠ [] ∧
    (((sample 1 2 exTensor exAssign exMask exMetrics).1.length = 1 ∧
      (∀ plane ∈ (sample 1 2 exTensor exAssign exMask exMetrics).1,
        plane.length = 2 ∧
          ∀ line ∈ plane, line.length = exMetrics.length) ∧
      (∀ u t mi, u < 1 → t < 2 → mi < exMetrics.length →
        (((((sample 1 2 exTensor exAssign exMask
              exMetrics).1.getD u []).getD t []).getD mi (some 0) = none) ↔
          exMask u t = true))) ∧
    ((∀ row ∈ (sample 1 2 exTensor exAssign exMask exMetrics).2,
        row.unit_id < 1 ∧ row.time < 2 ∧
          exMask row.unit_id row.time = false ∧
          row.metricValues.length = exMetrics.length ∧
          ∀ v ∈ row.metricValues, v.isSome = true) ∧
      (∀ u t, u < 1 → t < 2 → exMask u t = false →
        sampleRowAt exTensor exAssign exMask exMetrics u t ∈
          (sample 1 2 exTensor exAssign exMask exMetrics).2))) :=
  ⟨by simp [exMetrics],
    sample_spec 1 2 exTensor exAssign exMask exMetrics (by simp [exMetrics])⟩

end SynGyn
